import Mathlib

/-!
Verification of the LRU-cached range-sum module (task-1): a shallow
embedding of the LRUCache class and of the range_sum / update functions,
followed by theorems about them. Python integers are modelled as Int,
the backing array as a List Int, and the OrderedDict inside the cache as
an association list in insertion order (oldest first, most recent last).
Python list indexing and slicing are modelled faithfully, including
negative indices and the clamping slice semantics.
-/

instance {ε α : Type} [DecidableEq ε] [DecidableEq α] : DecidableEq (Except ε α) := fun a b =>
  match a, b with
  | .error e, .error f =>
      if h : e = f then .isTrue (h ▸ rfl) else .isFalse (fun hh => h (by cases hh; rfl))
  | .error _, .ok _ => .isFalse (fun hh => by cases hh)
  | .ok _, .error _ => .isFalse (fun hh => by cases hh)
  | .ok x, .ok y =>
      if h : x = y then .isTrue (h ▸ rfl) else .isFalse (fun hh => h (by cases hh; rfl))

/-- Normalization of one Python slice bound for a list of length n
(step-1 slices): a negative bound counts from the end and clamps at 0,
a nonnegative bound clamps at n. -/
def pyNorm (i : Int) (n : Nat) : Nat :=
  if i < 0 then (i + n).toNat else min i.toNat n

/-- Python slice xs[a:b]. -/
def pySlice (xs : List Int) (a b : Int) : List Int :=
  (xs.take (pyNorm b xs.length)).drop (pyNorm a xs.length)

/-- range_sum_no_cache: sum(array[left:right+1]). -/
def range_sum_no_cache (array : List Int) (left right : Int) : Int :=
  (pySlice array left (right + 1)).sum

/-- Python list item assignment xs[i] = v: a negative index counts from
the end; an index below -len(xs) or at/above len(xs) raises IndexError,
modelled as the error branch of Except. -/
def pySet (xs : List Int) (i v : Int) : Except Unit (List Int) :=
  if 0 ≤ i ∧ i < (xs.length : Int) then .ok (xs.set i.toNat v)
  else if -(xs.length : Int) ≤ i ∧ i < 0 then .ok (xs.set (i + xs.length).toNat v)
  else .error ()

/-- update_no_cache: array[index] = value. -/
def update_no_cache (array : List Int) (index value : Int) : Except Unit (List Int) :=
  pySet array index value

/-- The LRUCache class: the configured capacity plus the OrderedDict,
modelled as an association list in insertion order. -/
structure LRUCache where
  capacity : Int
  data : List ((Int × Int) × Int)
  deriving DecidableEq

/-- LRUCache.__init__(capacity): stores the capacity and an empty dict. -/
def LRUCache.new (capacity : Int) : LRUCache :=
  ⟨capacity, []⟩

/-- The value stored under a key, if present (the membership test
key in self._data together with the stored value). -/
def LRUCache.lookup (c : LRUCache) (k : Int × Int) : Option Int :=
  (c.data.find? (fun e => decide (e.1 = k))).map (fun e => e.2)

/-- LRUCache.get: returns -1 on a miss with no state change; on a hit
pops the entry, reinserts it at the most recent end and returns the
stored value. -/
def LRUCache.get (c : LRUCache) (k : Int × Int) : Int × LRUCache :=
  match c.data.find? (fun e => decide (e.1 = k)) with
  | none => (-1, c)
  | some e => (e.2, ⟨c.capacity, (c.data.filter (fun x => decide (x.1 ≠ k))) ++ [(k, e.2)]⟩)

/-- LRUCache.put: pops the key if present, inserts at the most recent
end, then drops the oldest entry if the size exceeds the capacity. -/
def LRUCache.put (c : LRUCache) (k : Int × Int) (v : Int) : LRUCache :=
  let d := (c.data.filter (fun x => decide (x.1 ≠ k))) ++ [(k, v)]
  if (d.length : Int) > c.capacity then ⟨c.capacity, d.tail⟩ else ⟨c.capacity, d⟩

/-- range_sum_with_cache, instrumented with a Boolean recording whether
the cached branch (a hit, cached value different from -1) was taken:
returns the value, the new cache state and the hit flag. -/
def range_sum_with_cache (array : List Int) (left right : Int) (c : LRUCache) :
    Int × LRUCache × Bool :=
  let g := c.get (left, right)
  if g.1 ≠ -1 then (g.1, g.2, true)
  else
    let res := (pySlice array left (right + 1)).sum
    (res, g.2.put (left, right) res, false)

/-- update_with_cache: writes the array cell (Python indexing, may raise
IndexError), then rebuilds the dict keeping only the entries whose range
does not contain the raw index. -/
def update_with_cache (array : List Int) (index value : Int) (c : LRUCache) :
    Except Unit (List Int × LRUCache) :=
  match pySet array index value with
  | .error e => .error e
  | .ok arr =>
      .ok (arr, ⟨c.capacity, c.data.filter (fun e => decide (¬(e.1.1 ≤ index ∧ index ≤ e.1.2)))⟩)

/-- The invalidation sweep of update_with_cache in isolation: the dict
rebuilt without the entries whose range contains the raw index. -/
def invalidate (c : LRUCache) (index : Int) : LRUCache :=
  ⟨c.capacity, c.data.filter (fun e => decide (¬(e.1.1 ≤ index ∧ index ≤ e.1.2)))⟩

/-- A benchmark operation: a Range query or an Update, as emitted by
make_queries and consumed by the run_sequence drivers. -/
inductive Op where
  | range (left right : Int)
  | update (index value : Int)
  deriving DecidableEq

/-- In-bounds condition on an operation for an array of length n. -/
def Op.wf (n : Nat) : Op → Bool
  | .range l r => decide (0 ≤ l) && decide (l ≤ r) && decide (r < (n : Int))
  | .update i _ => decide (0 ≤ i) && decide (i < (n : Int))

/-- run_sequence_no_cache, collecting the values returned by the Range
queries and the final array; an out-of-range Update aborts with the
error. -/
def run_no_cache (array : List Int) : List Op → Except Unit (List Int × List Int)
  | [] => .ok ([], array)
  | Op.range l r :: ops =>
      match run_no_cache array ops with
      | .ok (outs, fin) => .ok (range_sum_no_cache array l r :: outs, fin)
      | .error e => .error e
  | Op.update i v :: ops =>
      match pySet array i v with
      | .ok arr => run_no_cache arr ops
      | .error e => .error e

/-- run_sequence_with_cache on a given starting cache, collecting the
values returned by the Range queries, the final array and the final
cache; an out-of-range Update aborts with the error. -/
def run_with_cache (array : List Int) (c : LRUCache) :
    List Op → Except Unit (List Int × List Int × LRUCache)
  | [] => .ok ([], array, c)
  | Op.range l r :: ops =>
      let g := range_sum_with_cache array l r c
      match run_with_cache array g.2.1 ops with
      | .ok (outs, fin, cf) => .ok (g.1 :: outs, fin, cf)
      | .error e => .error e
  | Op.update i v :: ops =>
      match update_with_cache array i v c with
      | .ok (arr, c2) => run_with_cache arr c2 ops
      | .error e => .error e

/-- Forgets the final cache of a cached run, keeping the observable
outputs and the final array, for comparison with the uncached run. -/
def eraseCache : Except Unit (List Int × List Int × LRUCache) →
    Except Unit (List Int × List Int)
  | .ok (outs, fin, _) => .ok (outs, fin)
  | .error e => .error e

/-- A raw cache operation, for statements about the store alone. -/
inductive CacheOp where
  | get (k : Int × Int)
  | put (k : Int × Int) (v : Int)
  deriving DecidableEq

/-- Runs a list of raw cache operations from a starting state. -/
def runCacheOps (c : LRUCache) : List CacheOp → LRUCache
  | [] => c
  | CacheOp.get k :: ops => runCacheOps (c.get k).2 ops
  | CacheOp.put k v :: ops => runCacheOps (c.put k v) ops

/-- Puts a list of key/value pairs into the cache, in order. -/
def putAll (c : LRUCache) : List ((Int × Int) × Int) → LRUCache
  | [] => c
  | p :: ps => putAll (c.put p.1 p.2) ps

/-- Cache coherence: every cached entry covers an in-bounds range and
stores the current sum of that range. -/
def Coherent (array : List Int) (c : LRUCache) : Prop :=
  ∀ e ∈ c.data, 0 ≤ e.1.1 ∧ e.1.1 ≤ e.1.2 ∧ e.1.2 < (array.length : Int) ∧
    e.2 = range_sum_no_cache array e.1.1 e.1.2

example : range_sum_no_cache [1, 2, 3] 0 2 = 6 := by decide
example : range_sum_no_cache [1, 1, 1] 0 5 = 3 := by decide
example : pySet [1, 2] (-1) 7 = .ok [1, 7] := by decide
example : pySet [1, 2] 2 7 = .error () := by decide
example : (range_sum_with_cache [1, 2, 3] 0 1 (LRUCache.new 1)).1 = 3 := by decide
example :
    ((LRUCache.new 2).put (0, 1) 5).put (2, 3) 7 = ⟨2, [((0, 1), 5), ((2, 3), 7)]⟩ := by
  decide

/-! ### Helper lemmas about the cache primitives -/

theorem find?_filter_of_imp {α : Type} (xs : List α) (p q : α → Bool)
    (h : ∀ a, q a = true → p a = true) :
    (xs.filter p).find? q = xs.find? q := by
  rw [List.find?_filter]
  congr 1
  funext a
  cases hq : q a with
  | true => simp [h a hq, hq]
  | false => simp [hq]

theorem find?_filter_none {α : Type} (xs : List α) (p q : α → Bool)
    (h : ∀ a, q a = true → p a = false) :
    (xs.filter p).find? q = none := by
  rw [List.find?_filter, List.find?_eq_none]
  intro x _
  cases hq : q x with
  | true => simp [h x hq]
  | false => simp [hq]

theorem find?_append_key (xs : List ((Int × Int) × Int)) (k : Int × Int) (v : Int)
    (h : ∀ e ∈ xs, e.1 ≠ k) :
    (xs ++ [(k, v)]).find? (fun e => decide (e.1 = k)) = some (k, v) := by
  rw [List.find?_append]
  have hnone : xs.find? (fun e => decide (e.1 = k)) = none := by
    rw [List.find?_eq_none]
    intro e he
    simpa using h e he
  rw [hnone]
  simp

theorem find?_key_of_mem_nodup (xs : List ((Int × Int) × Int)) (p : (Int × Int) × Int)
    (hmem : p ∈ xs) (hnd : (xs.map Prod.fst).Nodup) :
    xs.find? (fun e => decide (e.1 = p.1)) = some p := by
  induction xs with
  | nil => cases hmem
  | cons x xs ih =>
    rw [List.map_cons, List.nodup_cons] at hnd
    rcases List.mem_cons.mp hmem with h | h
    · subst h
      simp
    · have hx : x.1 ≠ p.1 := by
        intro he
        exact hnd.1 (he ▸ List.mem_map_of_mem Prod.fst h)
      rw [List.find?_cons_of_neg _ (by simpa using hx)]
      exact ih h hnd.2

theorem length_filter_lt_of_mem {α : Type} (p : α → Bool) {xs : List α} {a : α}
    (ha : a ∈ xs) (hp : p a = false) : (xs.filter p).length < xs.length := by
  induction xs with
  | nil => cases ha
  | cons x xs ih =>
    rcases List.mem_cons.mp ha with h | h
    · subst h
      rw [List.filter_cons_of_neg (by simp [hp])]
      exact Nat.lt_succ_of_le (List.length_filter_le p xs)
    · cases hpx : p x with
      | true =>
        rw [List.filter_cons_of_pos (by simp [hpx])]
        simpa using Nat.succ_lt_succ (ih h)
      | false =>
        rw [List.filter_cons_of_neg (by simp [hpx])]
        exact Nat.lt_succ_of_lt (ih h)

theorem put_data (c : LRUCache) (k : Int × Int) (v : Int) :
    (c.put k v).data =
      if ((((c.data.filter (fun x => decide (x.1 ≠ k))) ++ [(k, v)]).length : Int) > c.capacity)
      then ((c.data.filter (fun x => decide (x.1 ≠ k))) ++ [(k, v)]).tail
      else (c.data.filter (fun x => decide (x.1 ≠ k))) ++ [(k, v)] := by
  simp only [LRUCache.put]
  split <;> rfl

theorem put_capacity (c : LRUCache) (k : Int × Int) (v : Int) :
    (c.put k v).capacity = c.capacity := by
  simp only [LRUCache.put]
  split <;> rfl

theorem get_capacity (c : LRUCache) (k : Int × Int) :
    ((c.get k).2).capacity = c.capacity := by
  simp only [LRUCache.get]
  cases hf : c.data.find? (fun e => decide (e.1 = k)) <;> rfl

theorem get_of_lookup_none (c : LRUCache) (k : Int × Int) (h : c.lookup k = none) :
    c.get k = (-1, c) := by
  unfold LRUCache.lookup at h
  unfold LRUCache.get
  cases hf : c.data.find? (fun e => decide (e.1 = k)) with
  | none => rfl
  | some e => rw [hf] at h; cases h

theorem get_of_lookup_some (c : LRUCache) (k : Int × Int) (v : Int)
    (h : c.lookup k = some v) :
    c.get k = (v, ⟨c.capacity, (c.data.filter (fun x => decide (x.1 ≠ k))) ++ [(k, v)]⟩) := by
  unfold LRUCache.lookup at h
  unfold LRUCache.get
  cases hf : c.data.find? (fun e => decide (e.1 = k)) with
  | none => rw [hf] at h; cases h
  | some e =>
      rw [hf] at h
      have hv : e.2 = v := by simpa using h
      subst hv
      rfl

theorem pyNorm_of_nonneg (i : Int) (n : Nat) (h0 : 0 ≤ i) (hn : i ≤ (n : Int)) :
    pyNorm i n = i.toNat := by
  unfold pyNorm
  rw [if_neg (by omega)]
  exact Nat.min_eq_left (by omega)

theorem range_sum_no_cache_set_outside (xs : List Int) (l r i v : Int)
    (hl : 0 ≤ l) (hlr : l ≤ r) (hr : r < (xs.length : Int))
    (hi0 : 0 ≤ i) (hin : i < (xs.length : Int)) (hout : i < l ∨ r < i) :
    range_sum_no_cache (xs.set i.toNat v) l r = range_sum_no_cache xs l r := by
  unfold range_sum_no_cache pySlice
  rw [List.length_set]
  rw [pyNorm_of_nonneg l xs.length hl (by omega),
      pyNorm_of_nonneg (r + 1) xs.length (by omega) (by omega)]
  rw [List.set_take]
  rcases hout with hlt | hgt
  · rw [List.drop_set, if_pos (by omega)]
  · rw [List.set_eq_of_length_le]
    have hle : (xs.take (r + 1).toNat).length ≤ (r + 1).toNat := by
      simp [List.length_take]
    omega

/-! ### C8: construction -/

/-- C8 counterexample: constructing with capacity 0 succeeds and yields
a usable cache instance (an empty store, on which a put keeps size 0),
contradicting the claim that capacity < 1 fails at construction time
with a configuration error and produces no cache instance. -/
theorem construction_cex :
    LRUCache.new 0 = ⟨0, []⟩ ∧ ((LRUCache.new 0).put (1, 2) 7).data = [] := by decide

/-- C8 (amended): construction never validates the capacity: any
capacity, including capacity < 1, produces a cache instance with an
empty store; with capacity < 1 every put immediately evicts the entry
it just inserted, leaving the store empty. -/
theorem construction_no_validation (capacity : Int) (k : Int × Int) (v : Int)
    (h : capacity < 1) :
    (LRUCache.new capacity).data = [] ∧ ((LRUCache.new capacity).put k v).data = [] := by
  refine ⟨rfl, ?_⟩
  rw [put_data]
  rw [if_pos]
  · rfl
  · simp only [LRUCache.new, List.filter_nil, List.nil_append, List.length_cons,
      List.length_nil]
    omega

/-- C8 witness. -/
theorem construction_no_validation_witness :
    (LRUCache.new (-3)).data = [] ∧ ((LRUCache.new (-3)).put (3, 4) 9).data = [] :=
  construction_no_validation (-3) (3, 4) 9 (by decide)

/-! ### C9: put/get round trip -/

/-- C9 counterexample: on a cache of capacity 0 (constructible, since
the constructor does not validate), put evicts the very entry it just
inserted, so the immediately following get returns the miss sentinel -1
rather than the stored value 5. -/
theorem put_get_roundtrip_cex :
    (((LRUCache.new 0).put (0, 0) 5).get (0, 0)).1 ≠ 5 := by decide

/-- C9 (amended): on every cache state with capacity at least 1,
immediately after put(k, v), get(k) returns v: the fresh put leaves k at
the most-recently-used end, so an eviction triggered by that put can
only remove an older entry. -/
theorem put_get_roundtrip (c : LRUCache) (k : Int × Int) (v : Int)
    (hC : 1 ≤ c.capacity) :
    ((c.put k v).get k).1 = v := by
  have hfk : ∀ e ∈ c.data.filter (fun x => decide (x.1 ≠ k)), e.1 ≠ k := by
    intro e he
    simpa using (List.mem_filter.mp he).2
  unfold LRUCache.get
  rw [put_data]
  by_cases h :
      ((((c.data.filter (fun x => decide (x.1 ≠ k))) ++ [(k, v)]).length : Int) > c.capacity)
  · rw [if_pos h]
    cases hf : c.data.filter (fun x => decide (x.1 ≠ k)) with
    | nil =>
        exfalso
        rw [hf] at h
        simp only [List.nil_append, List.length_cons, List.length_nil] at h
        omega
    | cons a as =>
        have hfk2 : ∀ e ∈ as, e.1 ≠ k := by
          intro e he
          refine hfk e ?_
          rw [hf]
          exact List.mem_cons_of_mem a he
        rw [List.cons_append, List.tail_cons, find?_append_key as k v hfk2]
  · rw [if_neg h]
    rw [find?_append_key _ k v hfk]

/-- C9 witness. -/
theorem put_get_roundtrip_witness :
    (((LRUCache.new 1).put (0, 0) 5).get (0, 0)).1 = 5 :=
  put_get_roundtrip (LRUCache.new 1) (0, 0) 5 (by decide)

/-! ### C6: update with an out-of-range index -/

/-- C6 counterexample: an update at the out-of-range index -1 on a
2-element array raises no error: Python negative indexing silently
writes the last cell, so the claim that every index outside [0, N)
errors out with the array left unmodified is false. -/
theorem update_oob_cex :
    update_with_cache [10, 20] (-1) 7 (LRUCache.new 5) = .ok ([10, 7], LRUCache.new 5) := by
  decide

/-- C6 (amended): update raises IndexError exactly for indices outside
[-N, N): there the error is surfaced immediately, before the array write
and the invalidation sweep; an index in [-N, 0) is accepted and writes
the cell N+index, while the invalidation compares cached ranges against
the raw negative index. -/
theorem update_index_error (array : List Int) (i v : Int) (c : LRUCache) :
    ((i < -(array.length : Int) ∨ (array.length : Int) ≤ i) →
      update_with_cache array i v c = .error ()) ∧
    ((-(array.length : Int) ≤ i ∧ i < 0) →
      ∃ c2, update_with_cache array i v c =
        .ok (array.set (i + (array.length : Int)).toNat v, c2)) := by
  constructor
  · intro h
    unfold update_with_cache pySet
    rw [if_neg (by omega), if_neg (by omega)]
  · intro h
    unfold update_with_cache pySet
    rw [if_neg (by omega), if_pos (by omega)]
    exact ⟨_, rfl⟩

/-- C6 witness. -/
theorem update_index_error_witness :
    update_with_cache [1, 2] 5 9 (LRUCache.new 1) = .error () :=
  (update_index_error [1, 2] 5 9 (LRUCache.new 1)).1 (by decide)

/-! ### C7: range query with invalid bounds -/

/-- C7 counterexample: the range query (0, 5) on a length-3 array raises
no error: Python slice clamping computes the sum 3 of the whole array,
returns it and stores it under the key (0, 5), contradicting the claimed
validation with no partial work and an unchanged store. -/
theorem range_validation_cex :
    range_sum_with_cache [1, 1, 1] 0 5 (LRUCache.new 1) =
      (3, ⟨1, [((0, 5), 3)]⟩, false) := by decide

/-- C7 (amended): a range query never raises: with arguments violating
0 ≤ left ≤ right < N and the key (left, right) not cached, the call
returns the sum of the Python slice array[left:right+1] (clamped,
possibly empty), stores it under (left, right) and reports a miss. -/
theorem range_no_validation (array : List Int) (l r : Int) (c : LRUCache)
    (hbad : l < 0 ∨ r < l ∨ (array.length : Int) ≤ r)
    (hmiss : c.lookup (l, r) = none) :
    range_sum_with_cache array l r c =
      (range_sum_no_cache array l r,
        c.put (l, r) (range_sum_no_cache array l r), false) := by
  simp only [range_sum_with_cache]
  rw [get_of_lookup_none c (l, r) hmiss]
  simp [range_sum_no_cache]

/-- C7 witness. -/
theorem range_no_validation_witness :
    range_sum_with_cache [1, 2] 2 1 (LRUCache.new 3) =
      (range_sum_no_cache [1, 2] 2 1,
        (LRUCache.new 3).put (2, 1) (range_sum_no_cache [1, 2] 2 1), false) :=
  range_no_validation [1, 2] 2 1 (LRUCache.new 3) (by decide) (by decide)

/-! ### C2 and C10: exact invalidation and the frame effect -/

theorem update_with_cache_ok (array : List Int) (i v : Int) (c : LRUCache)
    (h0 : 0 ≤ i) (hn : i < (array.length : Int)) :
    update_with_cache array i v c = .ok (array.set i.toNat v, invalidate c i) := by
  unfold update_with_cache pySet invalidate
  rw [if_pos ⟨h0, hn⟩]

/-- C2 (confirmed): after an in-bounds update(i, v), the store is the
original dict filtered by non-containment of i, in the original order:
every previously cached key (l, r) with l ≤ i ≤ r is absent, every
previously cached key with i < l or r < i keeps its value, and the
surviving entries form a sublist of the old entry list (relative recency
order unaltered). -/
theorem update_exact_invalidation (array : List Int) (i v : Int) (c : LRUCache)
    (h0 : 0 ≤ i) (hn : i < (array.length : Int)) :
    update_with_cache array i v c = .ok (array.set i.toNat v, invalidate c i) ∧
    (invalidate c i).data =
      c.data.filter (fun e => decide (¬(e.1.1 ≤ i ∧ i ≤ e.1.2))) ∧
    (invalidate c i).data.Sublist c.data ∧
    (∀ l r : Int, l ≤ i → i ≤ r → (invalidate c i).lookup (l, r) = none) ∧
    (∀ l r : Int, i < l ∨ r < i → (invalidate c i).lookup (l, r) = c.lookup (l, r)) := by
  refine ⟨update_with_cache_ok array i v c h0 hn, rfl, List.filter_sublist _, ?_, ?_⟩
  · intro l r hl hr
    unfold invalidate LRUCache.lookup
    rw [find?_filter_none]
    · rfl
    · intro a ha
      have hk : a.1 = (l, r) := of_decide_eq_true ha
      simp [hk]
      exact ⟨hl, hr⟩
  · intro l r hout
    unfold invalidate LRUCache.lookup
    rw [find?_filter_of_imp]
    intro a ha
    have hk : a.1 = (l, r) := of_decide_eq_true ha
    simp [hk]
    omega

/-- C2 witness. -/
theorem update_exact_invalidation_witness :
    (invalidate ⟨2, [((0, 1), 3), ((2, 2), 3)]⟩ 1).lookup (0, 1) = none ∧
    (invalidate ⟨2, [((0, 1), 3), ((2, 2), 3)]⟩ 1).lookup (2, 2) =
      (⟨2, [((0, 1), 3), ((2, 2), 3)]⟩ : LRUCache).lookup (2, 2) :=
  ⟨(update_exact_invalidation [1, 2, 3] 1 9 ⟨2, [((0, 1), 3), ((2, 2), 3)]⟩
      (by decide) (by decide)).2.2.2.1 0 1 (by decide) (by decide),
   (update_exact_invalidation [1, 2, 3] 1 9 ⟨2, [((0, 1), 3), ((2, 2), 3)]⟩
      (by decide) (by decide)).2.2.2.2 2 2 (Or.inl (by decide))⟩

/-- C10 (confirmed): an in-bounds update whose index is contained in no
cached range leaves the cache object completely unchanged (same keys,
values and recency order) and changes only the single array cell at the
index. -/
theorem update_frame (array : List Int) (i v : Int) (c : LRUCache)
    (h0 : 0 ≤ i) (hn : i < (array.length : Int))
    (hno : ∀ e ∈ c.data, ¬(e.1.1 ≤ i ∧ i ≤ e.1.2)) :
    update_with_cache array i v c = .ok (array.set i.toNat v, c) ∧
    (array.set i.toNat v).length = array.length ∧
    (array.set i.toNat v)[i.toNat]? = some v ∧
    (∀ j : Nat, j ≠ i.toNat → (array.set i.toNat v)[j]? = array[j]?) := by
  have hc : invalidate c i = c := by
    unfold invalidate
    have hfe : c.data.filter (fun e => decide (¬(e.1.1 ≤ i ∧ i ≤ e.1.2))) = c.data :=
      List.filter_eq_self.mpr (fun a ha => by
        simp only [decide_eq_true_eq]
        exact hno a ha)
    rw [hfe]
  refine ⟨?_, List.length_set array i.toNat v, ?_, ?_⟩
  · rw [update_with_cache_ok array i v c h0 hn, hc]
  · rw [List.getElem?_set_self]
    omega
  · intro j hj
    rw [List.getElem?_set_ne]
    omega

/-- C10 witness. -/
theorem update_frame_witness :
    update_with_cache [1, 2, 3] 0 7 ⟨2, [((1, 2), 5)]⟩ =
      .ok (([1, 2, 3] : List Int).set (0 : Int).toNat 7, ⟨2, [((1, 2), 5)]⟩) ∧
    (([1, 2, 3] : List Int).set (0 : Int).toNat 7)[(2 : Nat)]? =
      ([1, 2, 3] : List Int)[(2 : Nat)]? :=
  ⟨(update_frame [1, 2, 3] 0 7 ⟨2, [((1, 2), 5)]⟩ (by decide) (by decide) (by decide)).1,
   (update_frame [1, 2, 3] 0 7 ⟨2, [((1, 2), 5)]⟩ (by decide) (by decide) (by decide)).2.2.2
     2 (by decide)⟩

/-! ### C3: the capacity invariant -/

theorem put_length_le (c : LRUCache) (k : Int × Int) (v : Int)
    (h : (c.data.length : Int) ≤ c.capacity) :
    (((c.put k v).data.length : Int)) ≤ c.capacity := by
  rw [put_data]
  have h1 : (c.data.filter (fun x => decide (x.1 ≠ k))).length ≤ c.data.length :=
    List.length_filter_le _ _
  by_cases hc :
      (((c.data.filter (fun x => decide (x.1 ≠ k))) ++ [(k, v)]).length : Int) > c.capacity
  · rw [if_pos hc]
    have h2 : ((c.data.filter (fun x => decide (x.1 ≠ k)) ++ [(k, v)]).tail).length
        = (c.data.filter (fun x => decide (x.1 ≠ k))).length := by
      simp
    rw [h2]
    omega
  · rw [if_neg hc]
    omega

theorem get_length_le (c : LRUCache) (k : Int × Int)
    (h : (c.data.length : Int) ≤ c.capacity) :
    (((c.get k).2.data.length : Int)) ≤ c.capacity := by
  unfold LRUCache.get
  cases hf : c.data.find? (fun e => decide (e.1 = k)) with
  | none => exact h
  | some e =>
      have hmem : e ∈ c.data := List.mem_of_find?_eq_some hf
      have hpe : decide (e.1 ≠ k) = false := by
        have he : e.1 = k := by simpa using List.find?_some hf
        simp [he]
      have hlt := length_filter_lt_of_mem (fun x => decide (x.1 ≠ k)) hmem hpe
      show (((c.data.filter (fun x => decide (x.1 ≠ k))) ++ [(k, e.2)]).length : Int)
          ≤ c.capacity
      have h2 : ((c.data.filter (fun x => decide (x.1 ≠ k))) ++ [(k, e.2)]).length
          = (c.data.filter (fun x => decide (x.1 ≠ k))).length + 1 := by
        simp
      rw [h2]
      omega

theorem runCacheOps_capacity (ops : List CacheOp) (c : LRUCache) :
    (runCacheOps c ops).capacity = c.capacity := by
  induction ops generalizing c with
  | nil => rfl
  | cons op ops ih =>
    cases op with
    | get k =>
        show (runCacheOps (c.get k).2 ops).capacity = c.capacity
        rw [ih, get_capacity]
    | put k v =>
        show (runCacheOps (c.put k v) ops).capacity = c.capacity
        rw [ih, put_capacity]

theorem runCacheOps_length_le (ops : List CacheOp) (c : LRUCache)
    (h : (c.data.length : Int) ≤ c.capacity) :
    ((runCacheOps c ops).data.length : Int) ≤ c.capacity := by
  induction ops generalizing c with
  | nil => exact h
  | cons op ops ih =>
    cases op with
    | get k =>
        show ((runCacheOps (c.get k).2 ops).data.length : Int) ≤ c.capacity
        have h2 := get_length_le c k h
        have h3 := ih (c.get k).2 (by rw [get_capacity]; exact h2)
        rw [get_capacity] at h3
        exact h3
    | put k v =>
        show ((runCacheOps (c.put k v) ops).data.length : Int) ≤ c.capacity
        have h2 := put_length_le c k v h
        have h3 := ih (c.put k v) (by rw [put_capacity]; exact h2)
        rw [put_capacity] at h3
        exact h3

/-- C3 (confirmed): from an empty cache of capacity C with 1 ≤ C, no
sequence of get and put operations ever makes the store exceed C
entries; and a put of a new key into a full store drops exactly the
oldest (least-recently-used) entry and appends the new one at the
most-recently-used end. -/
theorem lru_capacity_invariant (C : Int) (hC : 1 ≤ C) :
    (∀ ops : List CacheOp,
        (((runCacheOps (LRUCache.new C) ops).data.length : Int)) ≤ C) ∧
    (∀ (c : LRUCache) (k : Int × Int) (v : Int), c.capacity = C →
        (c.data.length : Int) = C → c.lookup k = none →
        (c.put k v).data = c.data.tail ++ [(k, v)]) := by
  constructor
  · intro ops
    have h0 : (((LRUCache.new C).data.length : Int)) ≤ (LRUCache.new C).capacity := by
      show ((0 : Nat) : Int) ≤ C
      omega
    exact runCacheOps_length_le ops (LRUCache.new C) h0
  · intro c k v hcap hlen hmiss
    have hfind : c.data.find? (fun e => decide (e.1 = k)) = none := by
      unfold LRUCache.lookup at hmiss
      cases hf : c.data.find? (fun e => decide (e.1 = k)) with
      | none => rfl
      | some e => rw [hf] at hmiss; cases hmiss
    have hall : ∀ e ∈ c.data, e.1 ≠ k := by
      intro e he
      have := List.find?_eq_none.mp hfind e he
      simpa using this
    have hfilter : c.data.filter (fun x => decide (x.1 ≠ k)) = c.data :=
      List.filter_eq_self.mpr (fun a ha => by
        simp only [decide_eq_true_eq]
        exact hall a ha)
    rw [put_data, hfilter]
    rw [if_pos (by simp only [List.length_append, List.length_cons, List.length_nil]; omega)]
    cases hd : c.data with
    | nil =>
        exfalso
        rw [hd] at hlen
        simp at hlen
        omega
    | cons a as => rfl

/-- C3 witness. -/
theorem lru_capacity_invariant_witness :
    (((runCacheOps (LRUCache.new 2)
        [CacheOp.put (0, 0) 1, CacheOp.put (1, 1) 2,
         CacheOp.put (2, 2) 3]).data.length : Int)) ≤ 2 :=
  (lru_capacity_invariant 2 (by decide)).1
    [CacheOp.put (0, 0) 1, CacheOp.put (1, 1) 2, CacheOp.put (2, 2) 3]

/-! ### C5: eviction of the oldest key -/

theorem putAll_append (as bs : List ((Int × Int) × Int)) (c : LRUCache) :
    putAll c (as ++ bs) = putAll (putAll c as) bs := by
  induction as generalizing c with
  | nil => rfl
  | cons p ps ih =>
      show putAll (c.put p.1 p.2) (ps ++ bs) = putAll (putAll (c.put p.1 p.2) ps) bs
      exact ih _

theorem putAll_fresh (pairs : List ((Int × Int) × Int)) :
    ∀ c : LRUCache,
      (∀ p ∈ pairs, ∀ e ∈ c.data, e.1 ≠ p.1) →
      (pairs.map Prod.fst).Nodup →
      ((c.data.length : Int) + pairs.length ≤ c.capacity) →
      (putAll c pairs).data = c.data ++ pairs ∧ (putAll c pairs).capacity = c.capacity := by
  induction pairs with
  | nil =>
      intro c _ _ _
      exact ⟨(List.append_nil c.data).symm, rfl⟩
  | cons p ps ih =>
      intro c hfresh hnd hlen
      rw [List.map_cons, List.nodup_cons] at hnd
      have hfilter : c.data.filter (fun x => decide (x.1 ≠ p.1)) = c.data :=
        List.filter_eq_self.mpr (fun a ha => by
          simp only [decide_eq_true_eq]
          exact hfresh p (List.mem_cons_self p ps) a ha)
      have hput : (c.put p.1 p.2).data = c.data ++ [p] := by
        rw [put_data, hfilter, if_neg]
        simp only [List.length_append, List.length_cons, List.length_nil]
        simp only [List.length_cons] at hlen
        push_cast at hlen ⊢
        omega
      have hcap : (c.put p.1 p.2).capacity = c.capacity := put_capacity c p.1 p.2
      have hfresh2 : ∀ q ∈ ps, ∀ e ∈ (c.put p.1 p.2).data, e.1 ≠ q.1 := by
        intro q hq e he
        rw [hput] at he
        rcases List.mem_append.mp he with h | h
        · exact hfresh q (List.mem_cons_of_mem p hq) e h
        · have hep : e = p := by simpa using h
          subst hep
          intro hk
          exact hnd.1 (hk ▸ List.mem_map_of_mem Prod.fst hq)
      have hlen2 : (((c.put p.1 p.2).data.length : Int)) + ps.length
          ≤ (c.put p.1 p.2).capacity := by
        rw [hput, hcap]
        simp only [List.length_append, List.length_cons, List.length_nil]
        simp only [List.length_cons] at hlen
        push_cast at hlen ⊢
        omega
      have hih := ih (c.put p.1 p.2) hfresh2 hnd.2 hlen2
      constructor
      · show (putAll (c.put p.1 p.2) ps).data = c.data ++ p :: ps
        rw [hih.1, hput, List.append_assoc]
        rfl
      · show (putAll (c.put p.1 p.2) ps).capacity = c.capacity
        rw [hih.2, hcap]

/-- C5 (confirmed): from an empty cache of capacity C ≥ 1, after
putting C+1 pairs with pairwise distinct keys in order, the store holds
exactly the last C pairs in order: the first key is absent and every
later pair is present with its value. -/
theorem lru_evicts_oldest (C : Int) (pairs : List ((Int × Int) × Int))
    (hC : 1 ≤ C) (hnd : (pairs.map Prod.fst).Nodup)
    (hlen : (pairs.length : Int) = C + 1) :
    (putAll (LRUCache.new C) pairs).data = pairs.tail ∧
    (∀ p, pairs.head? = some p → (putAll (LRUCache.new C) pairs).lookup p.1 = none) ∧
    (∀ p ∈ pairs.tail, (putAll (LRUCache.new C) pairs).lookup p.1 = some p.2) := by
  have hne : pairs ≠ [] := by
    intro h
    subst h
    simp at hlen
    omega
  obtain ⟨fr, q, rfl⟩ : ∃ fr q, pairs = fr ++ [q] :=
    ⟨pairs.dropLast, pairs.getLast hne, (List.dropLast_concat_getLast hne).symm⟩
  rw [List.map_append, List.nodup_append] at hnd
  have hfrlen : ((fr.length : Int)) = C := by
    rw [List.length_append] at hlen
    push_cast at hlen
    simp at hlen
    omega
  have hkey : q.1 ∉ fr.map Prod.fst := by
    intro h
    exact hnd.2.2 h (by simp)
  have hput := putAll_fresh fr (LRUCache.new C)
      (fun p _ e he => absurd he (List.not_mem_nil e)) hnd.1
      (by
        simp only [LRUCache.new]
        simp
        omega)
  have hdata : (putAll (LRUCache.new C) fr).data = fr := by
    rw [hput.1]
    rfl
  have hfilter : fr.filter (fun x => decide (x.1 ≠ q.1)) = fr :=
    List.filter_eq_self.mpr (fun a ha => by
      simp only [decide_eq_true_eq]
      intro hk
      exact hkey (hk ▸ List.mem_map_of_mem Prod.fst ha))
  obtain ⟨a, as, rfl⟩ : ∃ a as, fr = a :: as := by
    cases fr with
    | nil => exfalso; simp at hfrlen; omega
    | cons a as => exact ⟨a, as, rfl⟩
  have hstep : putAll (LRUCache.new C) ((a :: as) ++ [q]) =
      (putAll (LRUCache.new C) (a :: as)).put q.1 q.2 := by
    rw [putAll_append]
    rfl
  have hcapC : (LRUCache.new C).capacity = C := rfl
  have hfinal : (putAll (LRUCache.new C) ((a :: as) ++ [q])).data = as ++ [q] := by
    rw [hstep, put_data, hdata, hfilter, hput.2, hcapC]
    rw [if_pos (by
      simp only [List.length_append, List.length_cons, List.length_nil]
      simp only [List.length_cons] at hfrlen
      push_cast at hfrlen ⊢
      omega)]
    rfl
  have hnd1 := hnd.1
  rw [List.map_cons, List.nodup_cons] at hnd1
  have hdisj := hnd.2.2
  have haq : a.1 ≠ q.1 := by
    intro h
    have h1 : a.1 ∈ List.map Prod.fst (a :: as) := by simp
    have h2 : a.1 ∈ List.map Prod.fst [q] := by simp [h]
    exact hdisj h1 h2
  have hasq : ∀ x ∈ as.map Prod.fst, x ≠ q.1 := by
    intro x hx h
    have h1 : x ∈ List.map Prod.fst (a :: as) := by
      rw [List.map_cons]
      exact List.mem_cons_of_mem _ hx
    have h2 : x ∈ List.map Prod.fst [q] := by simp [h]
    exact hdisj h1 h2
  refine ⟨?_, ?_, ?_⟩
  · rw [hfinal]
    rfl
  · intro p hp
    have hpa : a = p := by simpa using hp
    subst hpa
    unfold LRUCache.lookup
    rw [hfinal, List.find?_eq_none.mpr]
    · rfl
    · intro e he
      simp only [decide_eq_true_eq]
      rcases List.mem_append.mp he with h | h
      · intro hk
        exact hnd1.1 (hk ▸ List.mem_map_of_mem Prod.fst h)
      · have heq : e = q := by simpa using h
        subst heq
        intro hk
        exact haq hk.symm
  · intro p hp
    have hp2 : p ∈ as ++ [q] := by simpa using hp
    have hnodup2 : ((as ++ [q]).map Prod.fst).Nodup := by
      rw [List.map_append, List.nodup_append]
      exact ⟨hnd1.2, List.nodup_singleton _, by
        intro x hx hxq
        have : x = q.1 := by simpa using hxq
        exact hasq x hx this⟩
    unfold LRUCache.lookup
    rw [hfinal, find?_key_of_mem_nodup (as ++ [q]) p hp2 hnodup2]
    rfl

/-- C5 witness. -/
theorem lru_evicts_oldest_witness :
    (putAll (LRUCache.new 1) [((0, 0), 1), ((1, 1), 2)]).data = [((1, 1), 2)] :=
  (lru_evicts_oldest 1 [((0, 0), 1), ((1, 1), 2)] (by decide) (by decide) (by decide)).1

/-! ### C4: hits return the cached value -/

/-- C4 counterexample: a cached value equal to -1 (which arises
naturally, e.g. as the sum of the one-element range of the array [-1])
collides with the miss sentinel of get: with key (0, 0) present in the
store with value -1, the very next query for (0, 0) takes the miss
branch (hit flag false), recomputing from the array rather than serving
the hit the claim promises. -/
theorem hit_returns_cached_cex :
    (⟨1, [((0, 0), -1)]⟩ : LRUCache).lookup (0, 0) = some (-1) ∧
    (range_sum_with_cache [-1] 0 0 ⟨1, [((0, 0), -1)]⟩).2.2 = false := by decide

/-- C4 (amended): for every cache state in which key (l, r) is present
with stored value v ≠ -1 (the miss sentinel), a range query for (l, r)
returns v as a hit: the result and the new cache state are independent
of the backing array (no recomputation, no array access), and the
immediately repeated query again returns v as a hit. -/
theorem hit_returns_cached (array : List Int) (l r : Int) (c : LRUCache) (v : Int)
    (hv : c.lookup (l, r) = some v) (hne : v ≠ -1) :
    (range_sum_with_cache array l r c).1 = v ∧
    (range_sum_with_cache array l r c).2.2 = true ∧
    (∀ array2 : List Int,
      range_sum_with_cache array2 l r c = range_sum_with_cache array l r c) ∧
    (range_sum_with_cache array l r (range_sum_with_cache array l r c).2.1).1 = v ∧
    (range_sum_with_cache array l r (range_sum_with_cache array l r c).2.1).2.2 = true := by
  have hmain : ∀ (a : List Int) (cc : LRUCache), cc.lookup (l, r) = some v →
      range_sum_with_cache a l r cc =
        (v, ⟨cc.capacity,
          (cc.data.filter (fun x => decide (x.1 ≠ (l, r)))) ++ [((l, r), v)]⟩, true) := by
    intro a cc hcc
    simp only [range_sum_with_cache]
    rw [get_of_lookup_some cc (l, r) v hcc]
    simp [hne]
  have h2 : (⟨c.capacity,
      (c.data.filter (fun x => decide (x.1 ≠ (l, r)))) ++ [((l, r), v)]⟩ : LRUCache).lookup
        (l, r) = some v := by
    unfold LRUCache.lookup
    rw [find?_append_key _ (l, r) v (fun e he => by simpa using (List.mem_filter.mp he).2)]
    rfl
  refine ⟨by rw [hmain array c hv], by rw [hmain array c hv], ?_, ?_, ?_⟩
  · intro array2
    rw [hmain array2 c hv, hmain array c hv]
  · rw [hmain array c hv]
    rw [hmain array _ h2]
  · rw [hmain array c hv]
    rw [hmain array _ h2]

/-- C4 witness. -/
theorem hit_returns_cached_witness :
    (range_sum_with_cache [1, 2] 0 1 ⟨1, [((0, 1), 3)]⟩).1 = 3 ∧
    (range_sum_with_cache [1, 2] 0 1 ⟨1, [((0, 1), 3)]⟩).2.2 = true ∧
    range_sum_with_cache [5, 5] 0 1 ⟨1, [((0, 1), 3)]⟩ =
      range_sum_with_cache [1, 2] 0 1 ⟨1, [((0, 1), 3)]⟩ :=
  ⟨(hit_returns_cached [1, 2] 0 1 ⟨1, [((0, 1), 3)]⟩ 3 (by decide) (by decide)).1,
   (hit_returns_cached [1, 2] 0 1 ⟨1, [((0, 1), 3)]⟩ 3 (by decide) (by decide)).2.1,
   (hit_returns_cached [1, 2] 0 1 ⟨1, [((0, 1), 3)]⟩ 3 (by decide) (by decide)).2.2.1 [5, 5]⟩

/-! ### C1: the cached pipeline refines the uncached one -/

theorem coherent_promote (array : List Int) (c : LRUCache) (l r w : Int)
    (hc : Coherent array c) (h0 : 0 ≤ l) (hlr : l ≤ r) (hr : r < (array.length : Int))
    (hw : w = range_sum_no_cache array l r) :
    Coherent array
      ⟨c.capacity, (c.data.filter (fun x => decide (x.1 ≠ (l, r)))) ++ [((l, r), w)]⟩ := by
  intro x hx
  rcases List.mem_append.mp hx with h | h
  · exact hc x (List.mem_filter.mp h).1
  · have hxe : x = ((l, r), w) := by simpa using h
    subst hxe
    exact ⟨h0, hlr, hr, hw⟩

theorem coherent_put (array : List Int) (c : LRUCache) (l r v : Int)
    (hc : Coherent array c) (h0 : 0 ≤ l) (hlr : l ≤ r) (hr : r < (array.length : Int))
    (hv : v = range_sum_no_cache array l r) :
    Coherent array (c.put (l, r) v) := by
  intro x hx
  rw [put_data] at hx
  have hx2 : x ∈ (c.data.filter (fun y => decide (y.1 ≠ (l, r)))) ++ [((l, r), v)] := by
    by_cases hcond :
        ((((c.data.filter (fun y => decide (y.1 ≠ (l, r)))) ++ [((l, r), v)]).length : Int)
          > c.capacity)
    · rw [if_pos hcond] at hx
      exact (List.tail_sublist _).mem hx
    · rw [if_neg hcond] at hx
      exact hx
  rcases List.mem_append.mp hx2 with h | h
  · exact hc x (List.mem_filter.mp h).1
  · have hxe : x = ((l, r), v) := by simpa using h
    subst hxe
    exact ⟨h0, hlr, hr, hv⟩

theorem coherent_invalidate_set (array : List Int) (i v : Int) (c : LRUCache)
    (h0 : 0 ≤ i) (hn : i < (array.length : Int)) (hc : Coherent array c) :
    Coherent (array.set i.toNat v) (invalidate c i) := by
  intro x hx
  have hm := List.mem_filter.mp hx
  have hcx := hc x hm.1
  have hpred : ¬(x.1.1 ≤ i ∧ i ≤ x.1.2) := by
    have hb := hm.2
    simp only [decide_eq_true_eq] at hb
    exact hb
  have hlen : (array.set i.toNat v).length = array.length := List.length_set array i.toNat v
  refine ⟨hcx.1, hcx.2.1, ?_, ?_⟩
  · rw [hlen]
    exact hcx.2.2.1
  · rw [range_sum_no_cache_set_outside array x.1.1 x.1.2 i v hcx.1 hcx.2.1 hcx.2.2.1
      h0 hn (by omega)]
    exact hcx.2.2.2

theorem range_with_cache_correct (array : List Int) (l r : Int) (c : LRUCache)
    (hc : Coherent array c) (h0 : 0 ≤ l) (hlr : l ≤ r) (hr : r < (array.length : Int)) :
    (range_sum_with_cache array l r c).1 = range_sum_no_cache array l r ∧
    Coherent array (range_sum_with_cache array l r c).2.1 := by
  simp only [range_sum_with_cache]
  cases hf : c.data.find? (fun e => decide (e.1 = (l, r))) with
  | none =>
      have hg : c.get (l, r) = (-1, c) := by
        unfold LRUCache.get
        rw [hf]
      rw [hg]
      rw [if_neg (by simp)]
      exact ⟨rfl, coherent_put array c l r _ hc h0 hlr hr rfl⟩
  | some e =>
      have hek : e.1 = (l, r) := by simpa using List.find?_some hf
      have hmem : e ∈ c.data := List.mem_of_find?_eq_some hf
      have hval : e.2 = range_sum_no_cache array l r := by
        have hv0 := (hc e hmem).2.2.2
        rw [hek] at hv0
        exact hv0
      have hg : c.get (l, r) = (e.2,
          ⟨c.capacity, (c.data.filter (fun x => decide (x.1 ≠ (l, r)))) ++ [((l, r), e.2)]⟩) := by
        unfold LRUCache.get
        rw [hf]
      rw [hg]
      have hcoh := coherent_promote array c l r e.2 hc h0 hlr hr hval
      by_cases he : e.2 = -1
      · rw [if_neg (by simpa using he)]
        exact ⟨rfl, coherent_put array _ l r _ hcoh h0 hlr hr rfl⟩
      · rw [if_pos (by simpa using he)]
        exact ⟨hval, hcoh⟩

theorem run_equiv (ops : List Op) : ∀ (array : List Int) (c : LRUCache),
    Coherent array c → (∀ op ∈ ops, Op.wf array.length op = true) →
    ∃ outs fin cf, run_no_cache array ops = .ok (outs, fin) ∧
      run_with_cache array c ops = .ok (outs, fin, cf) := by
  induction ops with
  | nil =>
      intro array c _ _
      exact ⟨[], array, c, rfl, rfl⟩
  | cons op ops ih =>
      intro array c hc hwf
      have hwfop := hwf op (List.mem_cons_self op ops)
      have hwfops : ∀ o ∈ ops, Op.wf array.length o = true :=
        fun o ho => hwf o (List.mem_cons_of_mem op ho)
      cases op with
      | range l r =>
          have hb : 0 ≤ l ∧ l ≤ r ∧ r < (array.length : Int) := by
            simp only [Op.wf, Bool.and_eq_true, decide_eq_true_eq] at hwfop
            exact ⟨hwfop.1.1, hwfop.1.2, hwfop.2⟩
          have hcorrect := range_with_cache_correct array l r c hc hb.1 hb.2.1 hb.2.2
          obtain ⟨outs, fin, cf, h1, h2⟩ := ih array (range_sum_with_cache array l r c).2.1
            hcorrect.2 hwfops
          refine ⟨range_sum_no_cache array l r :: outs, fin, cf, ?_, ?_⟩
          · simp only [run_no_cache]
            rw [h1]
          · simp only [run_with_cache]
            rw [h2, hcorrect.1]
      | update i v =>
          have hb : 0 ≤ i ∧ i < (array.length : Int) := by
            simp only [Op.wf, Bool.and_eq_true, decide_eq_true_eq] at hwfop
            exact hwfop
          have hset : pySet array i v = .ok (array.set i.toNat v) := by
            unfold pySet
            rw [if_pos ⟨hb.1, hb.2⟩]
          have hupd : update_with_cache array i v c = .ok (array.set i.toNat v, invalidate c i) :=
            update_with_cache_ok array i v c hb.1 hb.2
          have hlen : (array.set i.toNat v).length = array.length := List.length_set array i.toNat v
          have hc2 : Coherent (array.set i.toNat v) (invalidate c i) :=
            coherent_invalidate_set array i v c hb.1 hb.2 hc
          have hwf2 : ∀ o ∈ ops, Op.wf (array.set i.toNat v).length o = true := by
            rw [hlen]
            exact hwfops
          obtain ⟨outs, fin, cf, h1, h2⟩ := ih (array.set i.toNat v) (invalidate c i) hc2 hwf2
          refine ⟨outs, fin, cf, ?_, ?_⟩
          · simp only [run_no_cache]
            rw [hset]
            exact h1
          · simp only [run_with_cache]
            rw [hupd]
            exact h2

/-- C1 (confirmed): for every finite sequence of interleaved in-bounds
Range and Update operations executed from the same initial array, the
cached pipeline with a fresh LRUCache of any capacity C ≥ 1 returns
exactly the same sequence of Range results (and reaches the same final
array) as the uncached reference. -/
theorem cached_refines_uncached (array : List Int) (C : Int) (ops : List Op)
    (hC : 1 ≤ C) (hwf : ∀ op ∈ ops, Op.wf array.length op = true) :
    eraseCache (run_with_cache array (LRUCache.new C) ops) = run_no_cache array ops := by
  obtain ⟨outs, fin, cf, h1, h2⟩ := run_equiv ops array (LRUCache.new C)
    (fun e he => absurd he (List.not_mem_nil e)) hwf
  rw [h1, h2]
  rfl

/-- C1 witness. -/
theorem cached_refines_uncached_witness :
    eraseCache (run_with_cache [1, 2, 3] (LRUCache.new 1)
        [Op.range 0 2, Op.update 1 5, Op.range 0 2, Op.range 0 2]) =
      run_no_cache [1, 2, 3] [Op.range 0 2, Op.update 1 5, Op.range 0 2, Op.range 0 2] :=
  cached_refines_uncached [1, 2, 3] 1
    [Op.range 0 2, Op.update 1 5, Op.range 0 2, Op.range 0 2] (by decide) (by decide)
